import Mathlib

/-!
Shallow embedding of the `ma_pca` pipeline (mapca/mapca.py) and proofs about
the specification claims C1-C10.  Machine floats are modelled by exact
rationals; complex eigenvalues by pairs (real part, imaginary part);
fallible steps return `Option` or `Except`.  Transcendental collaborator
values (logarithms, the spatial-lag estimator, the kurtosis statistic, the
SVD output) enter as parameters, exactly at the call sites where the Python
code invokes the corresponding routine.
-/

/-- Machine epsilon of an IEEE double, `np.finfo(float).eps`, as an exact
rational. -/
def machineEps : ℚ := 1 / 2 ^ 52

/-- Rounding of `np.round`: round half to even (banker's rounding). -/
def roundHalfEven (q : ℚ) : ℤ :=
  if q - Int.floor q < 1 / 2 then Int.floor q
  else if 1 / 2 < q - Int.floor q then Int.floor q + 1
  else if Int.floor q % 2 = 0 then Int.floor q else Int.floor q + 1

/-- Median of `np.median`: middle element of the sorted data, or the mean of
the two middle elements for even length. -/
def npMedian (l : List ℚ) : ℚ :=
  let s := List.insertionSort (· ≤ ·) l
  if l.length % 2 = 1 then s.getD (l.length / 2) 0
  else (s.getD (l.length / 2 - 1) 0 + s.getD (l.length / 2) 0) / 2

/-- Sum of the imaginary parts of the corrected eigenspectrum:
`np.sum(np.imag(EigenValues))`, mapca.py line 152. -/
def sumImag (ev : List (ℚ × ℚ)) : ℚ := (ev.map Prod.snd).sum

/-- Minimum of a complex array in numpy order (lexicographic on real part,
then imaginary part); `np.min`, mapca.py line 158. -/
def minLex : List (ℚ × ℚ) → ℚ × ℚ
  | [] => (0, 0)
  | [a] => a
  | a :: b :: t =>
    let m := minLex (b :: t)
    if a.1 < m.1 ∨ (a.1 = m.1 ∧ a.2 ≤ m.2) then a else m

/-- Clamp of ill-conditioned eigenvalues, mapca.py lines 157-160: when entries
with real part ≤ eps exist, each of them is replaced by the minimum entry
among those with real part ≥ eps. -/
def clampSpectrum (ev : List (ℚ × ℚ)) : List (ℚ × ℚ) :=
  if 0 < (ev.filter (fun e => decide (e.1 ≤ machineEps))).length then
    let m := minLex (ev.filter (fun e => decide (machineEps ≤ e.1)))
    ev.map (fun e => if e.1 ≤ machineEps then m else e)
  else ev

/-- Post-correction eigenvalue validation, mapca.py lines 152-160: raise when
the sum of the imaginary parts is non-zero (`if np.sum(np.imag(EigenValues))`),
otherwise clamp and continue. -/
def spectrumCheck (ev : List (ℚ × ℚ)) : Except String (List (ℚ × ℚ)) :=
  if sumImag ev ≠ 0 then
    Except.error ("Invalid eigen value found for the subsampled data.")
  else Except.ok (clampSpectrum ev)

/-- Descending reorder of an eigenvalue spectrum: `EigenValues[::-1]`,
mapca.py lines 69 and 144 (used after both decompositions). -/
def reorderSpectrum (l : List ℚ) : List ℚ := l.reverse

/-- String dispatch of the model-order criterion, mapca.py lines 179-184: an
unrecognized string leaves `criteria_idx` unassigned, so the subsequent use of
the variable fails; the unassigned state is modelled as `none`. -/
def criteriaIdx (c : String) : Option ℕ :=
  if c = "aic" then some 0
  else if c = "kic" then some 1
  else if c = "mdl" then some 2
  else none

/-- Criterion-curve lookup `itc[criteria_idx, :]`, mapca.py line 186; fails
(`none`) when `criteria_idx` was never assigned. -/
def selectCurve (itc : List (List ℚ)) (c : String) : Option (List ℚ) :=
  (criteriaIdx c).bind fun i => itc[i]?

/-- Row selection of in-mask voxels, `data_nib_V[maskvec == 1, :]`,
mapca.py line 58. -/
def maskedRows (dataV : List (List ℚ)) (maskvec : List ℚ) : List (List ℚ) :=
  ((dataV.zip maskvec).filter (fun p => decide (p.2 = 1))).map Prod.fst

/-- Masking and flattening step, mapca.py lines 55-58.  The reshape
`np.reshape(mask_nib, Nx * Ny * Nz, order="F")` succeeds exactly when the
mask's element count equals Nx*Ny*Nz — the mask's own spatial shape
`maskShape` is otherwise never consulted — after which the in-mask rows of
the flattened data are selected.  `maskBuf` is the mask's flattened
(Fortran-order) contents. -/
def maskingStep (dataV : List (List ℚ)) (maskShape : ℕ × ℕ × ℕ)
    (maskBuf : List ℚ) (nx ny nz : ℕ) : Option (List (List ℚ)) :=
  if maskBuf.length = nx * ny * nz then some (maskedRows dataV maskBuf)
  else none

/-- Largest natural number n with n ^ d ≤ q: the value of
`np.floor(np.power(q, 1 / d))` for non-negative q under exact real
arithmetic (mapca.py lines 120-121). -/
def floorNthRoot (q : ℚ) (d : ℕ) : ℕ :=
  ((List.range ((Int.ceil q).toNat + 1)).filter
    (fun n : ℕ => decide ((n : ℚ) ^ d ≤ q))).foldr max 0

/-- Final spatial subsampling depth, mapca.py lines 119-121: the rounded
median of the collected probe depths, clamped to
floor((voxel_count / Nt) ^ (1 / dim)) when that bound is smaller. -/
def subDepthFinal (depths : List ℚ) (vox nt dim : ℕ) : ℤ :=
  if (floorNthRoot ((vox : ℚ) / (nt : ℚ)) dim : ℤ) < roundHalfEven (npMedian depths)
  then (floorNthRoot ((vox : ℚ) / (nt : ℚ)) dim : ℤ)
  else roundHalfEven (npMedian depths)

/-- Spectrum retained by the pipeline, mapca.py lines 124-144: when the
final depth differs from 1 the data is resampled and the spectrum is
recomputed (here `specR`), otherwise the original spectrum `spec0` is
kept. -/
def finalSpectrum (depths : List ℚ) (vox nt dim : ℕ)
    (spec0 specR : List ℚ) : List ℚ :=
  if subDepthFinal depths vox nt dim ≠ 1 then specR else spec0

/-- The first m probe depths, in probe order; entry i is the collaborator's
lag estimate plus one for probe i (`_est_indp_sp(x_single)[0] + 1`,
mapca.py line 110), passed as the parameter d. -/
def firstDepths (d : ℕ → ℚ) (m : ℕ) : List ℚ := (List.range m).map d

/-- Number of collected depths equal to the rounded running median:
`np.sum(tmp_sub_sp == np.round(np.median(tmp_sub_sp)))`,
mapca.py lines 113-114. -/
def medianCount (l : List ℚ) : ℕ :=
  (l.filter (fun x => decide (x = ((roundHalfEven (npMedian l) : ℤ) : ℚ)))).length

/-- The early-stop test of the depth loop succeeds after probe i: more than
6 of the first i depths — the slice `sub_iid_sp[0:i]`, which excludes the
depth just computed — equal their rounded median. -/
def stopCond (d : ℕ → ℚ) (i : ℕ) : Prop := 6 < medianCount (firstDepths d i)

instance (d : ℕ → ℚ) (i : ℕ) : Decidable (stopCond d i) :=
  inferInstanceAs (Decidable (6 < medianCount (firstDepths d i)))

/-- Subsampling-depth estimation loop, mapca.py lines 106-116: for each probe
index i the depth d i is computed and appended; when i > 6 and more than 6 of
the previously collected depths (`sub_iid_sp[0:i]`, excluding the newest)
equal their rounded median, the loop stops and keeps only those previously
collected depths. -/
def depthLoop (d : ℕ → ℚ) : List ℕ → List ℚ → List ℚ
  | [], acc => acc
  | i :: rest, acc =>
    if 6 < i ∧ 6 < medianCount acc then acc
    else depthLoop d rest (acc ++ [d i])

/-- The collection of depths over which the final median is taken,
`sub_iid_sp` after the loop of mapca.py lines 106-116. -/
def subIidSp (d : ℕ → ℚ) (n : ℕ) : List ℚ := depthLoop d (List.range n) []

/-- Concrete probe-depth sequence for the C3 counterexample: seven depths
equal to 2 followed by a very different depth 100. -/
def dEx : ℕ → ℚ := fun i => if i ≤ 6 then 2 else 100

/-- First difference of a one-dimensional array, `np.diff`,
mapca.py line 186. -/
def npDiff (l : List ℚ) : List ℚ := (l.zip l.tail).map fun p => p.2 - p.1

/-- Candidate orders at which the criterion curve increases:
`np.where(dlap > 0)[0] + 1`, mapca.py line 187. -/
def firstPosDiff (curve : List ℚ) : List ℕ :=
  ((List.range (npDiff curve).length).filter
    (fun i => decide (0 < (npDiff curve).getD i 0))).map (· + 1)

/-- Selected model order `comp_est`, mapca.py lines 186-191: the first entry
of the positive-difference index list, or the curve length when that list is
empty. -/
def compEst (curve : List ℚ) : ℕ :=
  match firstPosDiff curve with
  | [] => curve.length
  | a :: _ => a

/-- The criterion curve strictly increases from position i to i + 1. -/
def diffPos (curve : List ℚ) (i : ℕ) : Prop :=
  i + 1 < curve.length ∧ curve.getD i 0 < curve.getD (i + 1) 0

instance (curve : List ℚ) (i : ℕ) : Decidable (diffPos curve i) :=
  inferInstanceAs (Decidable (_ ∧ _))

/-- Model complexity term df = 1 + 0.5 k (2p - k + 1), mapca.py line 172. -/
def dfTerm (p k : ℕ) : ℚ := 1 + (1 / 2) * (k : ℚ) * (2 * (p : ℚ) - (k : ℚ) + 1)

/-- Scaled log-likelihood mlh = 0.5 N (p - k) LH(k), mapca.py line 171.
LH(k) — the logarithm of the ratio of the geometric to the arithmetic mean
of the trailing corrected eigenvalues — is transcendental and enters as the
parameter LH. -/
def mlhTerm (N : ℚ) (p k : ℕ) (LH : ℕ → ℚ) : ℚ :=
  (1 / 2) * N * ((p : ℚ) - (k : ℚ)) * LH k

/-- AIC curve over candidate orders k = 1 .. p-1, mapca.py line 173. -/
def aicCurve (N : ℚ) (p : ℕ) (LH : ℕ → ℚ) : List ℚ :=
  (List.range (p - 1)).map fun i => -2 * mlhTerm N p (i + 1) LH + 2 * dfTerm p (i + 1)

/-- KIC curve over candidate orders k = 1 .. p-1, mapca.py line 174. -/
def kicCurve (N : ℚ) (p : ℕ) (LH : ℕ → ℚ) : List ℚ :=
  (List.range (p - 1)).map fun i => -2 * mlhTerm N p (i + 1) LH + 3 * dfTerm p (i + 1)

/-- MDL curve over candidate orders k = 1 .. p-1, mapca.py line 175; the
transcendental log N enters as the parameter logN. -/
def mdlCurve (N logN : ℚ) (p : ℕ) (LH : ℕ → ℚ) : List ℚ :=
  (List.range (p - 1)).map fun i =>
    -(mlhTerm N p (i + 1) LH) + (1 / 2) * dfTerm p (i + 1) * logN

/-- The stacked criterion curves `np.row_stack([aic, kic, mdl])`,
mapca.py line 177. -/
def itcStack (N logN : ℚ) (p : ℕ) (LH : ℕ → ℚ) : List (List ℚ) :=
  [aicCurve N p LH, kicCurve N p LH, mdlCurve N logN p LH]

/-- Arithmetic mean `np.mean`. -/
def meanQ (l : List ℚ) : ℚ := l.sum / l.length

/-- The kurtosis statistic after the sentinel assignment
`kurtv1[EigenValues > np.mean(EigenValues)] = 1000`, mapca.py line 77: a
component whose eigenvalue exceeds the mean eigenvalue is forced to the
sentinel 1000, the rest keep the collaborator value `kurt`. -/
def kurtAdjusted (kurt eig : List ℚ) (i : ℕ) : ℚ :=
  if meanQ eig < eig.getD i 0 then 1000 else kurt.getD i 0

/-- Eligible Gaussian components, mapca.py lines 78-88: indices whose
adjusted statistic lies strictly in (0, 0.3) and whose eigenvalue exceeds
machine epsilon (`np.where` yields ascending indices). -/
def idxGauss (kurt eig : List ℚ) : List ℕ :=
  (List.range eig.length).filter fun i =>
    decide (kurtAdjusted kurt eig i < 3 / 10) &&
    decide (0 < kurtAdjusted kurt eig i) &&
    decide (machineEps < eig.getD i 0)

/-- Indices of eigenvalues above machine epsilon. -/
def epsIndices (eig : List ℚ) : List ℕ :=
  (List.range eig.length).filter fun i => decide (machineEps < eig.getD i 0)

/-- Degrees of freedom `dfs = np.sum(EigenValues > np.finfo(float).eps)`,
mapca.py line 89. -/
def dfsCount (eig : List ℚ) : ℕ := (epsIndices eig).length

/-- Removal of adjacent duplicates; on a sorted list this is exactly the
deduplication performed by `np.unique`. -/
def dedupAdj : List ℕ → List ℕ
  | [] => []
  | [a] => [a]
  | a :: b :: t => if a = b then dedupAdj (b :: t) else a :: dedupAdj (b :: t)

/-- Model of `np.unique`: sort ascending, then deduplicate (mapca.py line 99). -/
def npUniqueN (l : List ℕ) : List ℕ := dedupAdj (List.insertionSort (· ≤ ·) l)

/-- Middle position `int(np.round(len(idx) / 2))`, mapca.py line 93. -/
def middleOf (n : ℕ) : ℕ := (roundHalfEven ((n : ℚ) / 2)).toNat

/-- Probe-component selection, mapca.py lines 92-99: with at least 12
eligible indices, stack the first 4, the 4 starting at middle-1 and the last
4, then `np.unique`; otherwise fall back to
`np.arange(dfs - min(12, dfs), dfs)`, again through `np.unique`. -/
def gaussianSelect (kurt eig : List ℚ) : List ℕ :=
  if 12 ≤ (idxGauss kurt eig).length then
    npUniqueN ((idxGauss kurt eig).take 4 ++
      ((idxGauss kurt eig).drop (middleOf (idxGauss kurt eig).length - 1)).take 4 ++
      (idxGauss kurt eig).drop ((idxGauss kurt eig).length - 4))
  else
    npUniqueN (List.range' (dfsCount eig - min 12 (dfsCount eig)) (min 12 (dfsCount eig)))

/-- Modelled from the spec: "the last min(12, degrees_of_freedom) indices
among all components with eigenvalue > epsilon" — the last k entries of a
list, stated in the spec's words for comparison with the code's arange. -/
def specLastEligible (l : List ℕ) (k : ℕ) : List ℕ := l.drop (l.length - k)

/-- The two successive assignments to `data`, mapca.py lines 61-62: the
variance-normalized copy (`scaler.fit_transform`) is bound and immediately
shadowed by the non-normalized matrix, so every later use of `data` — the
SVD, the subsampled matrix and the final PCA fit — sees the original
non-normalized data. -/
def fitInput (dataNonNormalized scaled : List (List ℚ)) : List (List ℚ) :=
  let data := scaled
  let data := dataNonNormalized
  data

/-- Dot product of two rows (`np.dot` on vectors). -/
def matDot (a b : List ℚ) : ℚ := ((a.zip b).map fun p => p.1 * p.2).sum

/-- Column j of a matrix stored as a list of rows. -/
def matCol (b : List (List ℚ)) (j : ℕ) : List ℚ := b.map fun r => r.getD j 0

/-- Matrix product `np.dot` with an explicit column count of the right
factor. -/
def matMul (a b : List (List ℚ)) (cols : ℕ) : List (List ℚ) :=
  a.map fun row => (List.range cols).map fun j => matDot row (matCol b j)

/-- Model of `np.diag(v)`: square matrix with v on the diagonal. -/
def npDiag (v : List ℚ) : List (List ℚ) :=
  (List.range v.length).map fun i =>
    (List.range v.length).map fun j => if i = j then v.getD i 0 else 0

/-- Spatial weights `u = np.dot(np.dot(data, v), np.diag(1.0 / s))`,
mapca.py line 200, with `data` the value produced by the assignments of
lines 61-62. -/
def computeU (dataNonNormalized scaled v : List (List ℚ)) (s : List ℚ) :
    List (List ℚ) :=
  matMul (matMul (fitInput dataNonNormalized scaled) v s.length)
    (npDiag (s.map fun x => 1 / x)) s.length

/-- Fortran-order (column-major, first axis fastest) linear index of voxel
(i, j, k) in an (nx, ny, nz) volume, the linearization used by every
`order="F"` reshape in mapca.py (lines 56, 57, 103, 109, 126, 132, 134). -/
def fortranIndex (nx ny : ℕ) (i j k : ℕ) : ℕ := i + nx * (j + ny * k)

/-- Reshape `np.reshape(l, (nx, ny, nz), order="F")`: the volume whose voxel
(i, j, k) holds the flat entry at the Fortran-order linear index. -/
def reshapeF (l : List ℚ) (nx ny : ℕ) (i j k : ℕ) : ℚ :=
  l.getD (fortranIndex nx ny i j k) 0

/-- Flattening `np.reshape(vol, nx * ny * nz, order="F")`: flattening of a volume in
the same Fortran order. -/
def flattenF (v : ℕ → ℕ → ℕ → ℚ) (nx ny nz : ℕ) : List ℚ :=
  (List.range (nx * ny * nz)).map fun n => v (n % nx) (n / nx % ny) (n / (nx * ny))

/-- Scatter of a component's values into the in-mask positions of a
zero-filled flat volume, `x_single[maskvec == 1] = values` (mapca.py lines
107-108 and 130-131): each position with mask value 1 receives the next
unconsumed component value, every other position stays 0. -/
def scatterMask : List ℚ → List ℚ → List ℚ
  | [], _ => []
  | m :: ms, cs =>
    if m = 1 then cs.getD 0 0 :: scatterMask ms cs.tail
    else 0 :: scatterMask ms cs

/-- Claim C2, counterexample: the corrected spectrum [(1, 1), (1, -1)] has
entries with non-zero imaginary part, but the code only tests the sum of the
imaginary parts, which cancels to zero, so no error is raised and the
pipeline proceeds to clamping. -/
theorem c2_counterexample :
    (∃ e ∈ ([(1, 1), (1, -1)] : List (ℚ × ℚ)), e.2 ≠ 0) ∧
    spectrumCheck [(1, 1), (1, -1)] =
      Except.ok (clampSpectrum [(1, 1), (1, -1)]) := by
  refine ⟨⟨(1, 1), by decide, by decide⟩, ?_⟩
  rw [spectrumCheck, if_neg]
  norm_num [sumImag]

/-- Claim C2, amended: the check fails exactly when the sum of the imaginary
parts of the corrected spectrum is non-zero.  In particular a spectrum whose
entries all have zero imaginary part passes and proceeds to clamping, but
entries with non-zero imaginary parts that cancel in the sum also pass. -/
theorem c2_amended (ev : List (ℚ × ℚ)) :
    (sumImag ev ≠ 0 ↔ ∃ msg, spectrumCheck ev = Except.error msg) ∧
    ((∀ e ∈ ev, e.2 = 0) → spectrumCheck ev = Except.ok (clampSpectrum ev)) := by
  constructor
  · constructor
    · intro h
      exact ⟨_, by rw [spectrumCheck, if_pos h]⟩
    · rintro ⟨msg, hm⟩ h0
      rw [spectrumCheck, if_neg (fun hc => hc h0)] at hm
      exact Except.noConfusion hm
  · intro hz
    have hs : sumImag ev = 0 := by
      refine List.sum_eq_zero ?_
      intro x hx
      rcases List.mem_map.mp hx with ⟨e, he, rfl⟩
      exact hz e he
    rw [spectrumCheck, if_neg (fun hc => hc hs)]

/-- Witness for c2_amended at a concrete all-real spectrum. -/
theorem c2_witness :
    spectrumCheck [(2, 0)] = Except.ok (clampSpectrum [(2, 0)]) :=
  (c2_amended [(2, 0)]).2 (by decide)

/-- Claim C7, counterexample: the spectrum [2, 1, 3] is non-negative, hence a
legal collaborator output under the stated contract (any natural ordering),
but the core's reordering step is a reversal, not a sort, and the reversed
spectrum [3, 1, 2] is not non-increasing. -/
theorem c7_counterexample :
    (∀ x ∈ ([2, 1, 3] : List ℚ), 0 ≤ x) ∧
    ¬ (reorderSpectrum [2, 1, 3]).Sorted (· ≥ ·) := by
  constructor
  · decide
  · intro h
    have h12 : (1 : ℚ) ≥ 2 := by
      have := List.sorted_cons.mp h
      have h2 := List.sorted_cons.mp this.2
      exact h2.1 2 (by decide)
    norm_num at h12

/-- Claim C7, amended: when the spectral-decomposition collaborator returns
the spectrum in ascending (non-decreasing) order — as section 4.2 of the
specification states — the core's reversal produces a non-increasing
spectrum; the same reorder is applied after the initial decomposition and
after the optional re-decomposition. -/
theorem c7_amended (l : List ℚ) (h : l.Sorted (· ≤ ·)) :
    (reorderSpectrum l).Sorted (· ≥ ·) := by
  unfold reorderSpectrum
  rw [List.Sorted, List.pairwise_reverse]
  exact h

/-- Witness for c7_amended at a concrete ascending spectrum. -/
theorem c7_witness : (reorderSpectrum [1, 2, 3]).Sorted (· ≥ ·) :=
  c7_amended [1, 2, 3] (by decide)

/-- Claim C6: for every criterion string other than "aic", "kic" and "mdl"
the dispatch assigns no index and the criterion-curve lookup fails, whatever
the computed curves are: the pipeline aborts rather than silently defaulting
to one of the three curves. -/
theorem c6_invalid_criterion (c : String) (itc : List (List ℚ))
    (h1 : c ≠ "aic") (h2 : c ≠ "kic") (h3 : c ≠ "mdl") :
    criteriaIdx c = none ∧ selectCurve itc c = none := by
  have hc : criteriaIdx c = none := by
    unfold criteriaIdx
    rw [if_neg h1, if_neg h2, if_neg h3]
  refine ⟨hc, ?_⟩
  unfold selectCurve
  rw [hc]
  rfl

/-- Witness for c6_invalid_criterion at the unrecognized criterion "foo". -/
theorem c6_witness :
    criteriaIdx ("foo") = none ∧ selectCurve [] ("foo") = none :=
  c6_invalid_criterion ("foo") [] (by decide) (by decide) (by decide)

/-- Claim C5, counterexample: a mask of spatial shape (2,2,1) applied to a
volume of spatial shape (1,2,2) has a mismatched shape but the same element
count, so the masking step accepts it and returns the full matrix instead of
failing; and an all-zero mask of matching shape is accepted as well,
returning an empty matrix rather than a shape error. -/
theorem c5_counterexample :
    ((2, 2, 1) : ℕ × ℕ × ℕ) ≠ (1, 2, 2) ∧
    maskingStep [[1], [2], [3], [4]] (2, 2, 1) [1, 1, 1, 1] 1 2 2 =
      some [[1], [2], [3], [4]] ∧
    maskingStep [[1], [2], [3], [4]] (1, 2, 2) [0, 0, 0, 0] 1 2 2 =
      some [] := by
  refine ⟨by decide, ?_, ?_⟩ <;> rfl

/-- Claim C5, amended: the core performs no mask validation.  The masking
step fails only when the mask's element count differs from the volume's
voxel count (the reshape error); a mask whose shape differs but whose
element count agrees is accepted silently, and an all-zero mask is accepted
and yields an empty matrix — any later failure comes from a collaborator,
not from a shape check. -/
theorem c5_amended (dataV : List (List ℚ)) (shape : ℕ × ℕ × ℕ)
    (buf : List ℚ) (nx ny nz : ℕ) :
    (maskingStep dataV shape buf nx ny nz = none ↔ buf.length ≠ nx * ny * nz) ∧
    ((∀ x ∈ buf, x = 0) → buf.length = nx * ny * nz →
      maskingStep dataV shape buf nx ny nz = some []) := by
  constructor
  · unfold maskingStep
    split <;> simp_all
  · intro hz hlen
    unfold maskingStep
    rw [if_pos hlen]
    have hfil : (dataV.zip buf).filter (fun p => decide (p.2 = 1)) = [] := by
      rw [List.filter_eq_nil_iff]
      intro a ha
      have h2 := (List.of_mem_zip ha).2
      have h0 := hz a.2 h2
      rw [h0]
      norm_num
    unfold maskedRows
    rw [hfil]
    rfl

/-- Witness for c5_amended with an all-zero one-voxel mask. -/
theorem c5_witness : maskingStep [[1]] (1, 1, 1) [0] 1 1 1 = some [] :=
  (c5_amended [[1]] (1, 1, 1) [0] 1 1 1).2 (by decide) (by decide)

/-- Any member of a list of naturals is bounded by the foldr of max. -/
theorem le_foldr_max {l : List ℕ} {a : ℕ} (h : a ∈ l) : a ≤ l.foldr max 0 := by
  induction l with
  | nil => cases h
  | cons b t ih =>
    rcases List.mem_cons.mp h with rfl | ht
    · exact le_max_left _ _
    · exact le_trans (ih ht) (le_max_right _ _)

/-- The median of a non-empty list of values that are all at least 1 is at
least 1. -/
theorem npMedian_ge_one {l : List ℚ} (hne : l ≠ [])
    (h1 : ∀ x ∈ l, 1 ≤ x) : 1 ≤ npMedian l := by
  have hpos : 0 < l.length := List.length_pos.mpr hne
  have hmem : ∀ i, i < l.length → 1 ≤ (List.insertionSort (· ≤ ·) l).getD i 0 := by
    intro i hi
    have hl : i < (List.insertionSort (· ≤ ·) l).length := by
      rw [List.length_insertionSort]; exact hi
    rw [List.getD_eq_getElem _ _ hl]
    refine h1 _ ?_
    exact ((List.perm_insertionSort (· ≤ ·) l).mem_iff).mp (List.getElem_mem hl)
  unfold npMedian
  split
  · exact hmem _ (by omega)
  · have ha := hmem (l.length / 2 - 1) (by omega)
    have hb := hmem (l.length / 2) (by omega)
    linarith

/-- Banker's rounding of a rational that is at least 1 is at least 1. -/
theorem roundHalfEven_ge_one {q : ℚ} (h : 1 ≤ q) : 1 ≤ roundHalfEven q := by
  have hf : (1 : ℤ) ≤ Int.floor q := Int.le_floor.mpr (by exact_mod_cast h)
  unfold roundHalfEven
  split_ifs <;> omega

/-- When q is at least 1, the integer d-th root bound is at least 1. -/
theorem floorNthRoot_ge_one {q : ℚ} (d : ℕ) (h : 1 ≤ q) :
    1 ≤ floorNthRoot q d := by
  unfold floorNthRoot
  refine le_foldr_max ?_
  rw [List.mem_filter]
  constructor
  · rw [List.mem_range]
    have hc : (1 : ℚ) ≤ (Int.ceil q : ℚ) := le_trans h (Int.le_ceil q)
    have hc2 : (1 : ℤ) ≤ Int.ceil q := by exact_mod_cast hc
    omega
  · simp only [decide_eq_true_eq, Nat.cast_one, one_pow]
    exact h

/-- Claim C4, counterexample: with a single probe depth of 1 (lag estimate
0), one in-mask voxel and 8 time points, the clamp bound
floor((1/8)^(1/3)) = 0 is smaller than the median candidate 1, so the final
subsampling depth used by the pipeline is 0, not ≥ 1. -/
theorem c4_counterexample :
    subDepthFinal [1] 1 8 3 = 0 ∧ ¬ 1 ≤ subDepthFinal [1] 1 8 3 := by
  have hfnr : floorNthRoot ((1 : ℚ) / 8) 3 = 0 := by
    have hc : Int.ceil ((1 : ℚ) / 8) = 1 := by norm_num [Int.ceil_eq_iff]
    norm_num [floorNthRoot, hc, List.range_succ, List.range_zero]
  have hmed : npMedian [1] = 1 := by norm_num [npMedian, List.insertionSort, List.orderedInsert]
  have hrnd : roundHalfEven 1 = 1 := by norm_num [roundHalfEven]
  have h : subDepthFinal [1] 1 8 3 = 0 := by
    norm_num [subDepthFinal, hmed, hrnd, hfnr]
  exact ⟨h, by rw [h]; norm_num⟩

/-- Claim C4, amended: the final subsampling depth is ≥ 1 provided the
in-mask voxel count is at least the number of time points (so that the clamp
bound is at least 1); the probe depths themselves are always ≥ 1 (lag + 1
with a non-negative lag).  When the final depth equals 1, no resampling
occurs and the original eigenspectrum is retained. -/
theorem c4_amended (depths : List ℚ) (vox nt dim : ℕ) (spec0 specR : List ℚ)
    (hne : depths ≠ []) (hd : ∀ x ∈ depths, 1 ≤ x)
    (hvt : nt ≤ vox) (hnt : 0 < nt) :
    1 ≤ subDepthFinal depths vox nt dim ∧
    (subDepthFinal depths vox nt dim = 1 →
      finalSpectrum depths vox nt dim spec0 specR = spec0) := by
  have hq : (1 : ℚ) ≤ (vox : ℚ) / (nt : ℚ) := by
    rw [le_div_iff₀ (by exact_mod_cast hnt)]
    rw [one_mul]
    exact_mod_cast hvt
  constructor
  · unfold subDepthFinal
    split
    · have := floorNthRoot_ge_one dim hq
      omega
    · exact roundHalfEven_ge_one (npMedian_ge_one hne hd)
  · intro h1
    unfold finalSpectrum
    rw [if_neg]
    omega

/-- Witness for c4_amended at a concrete valid configuration. -/
theorem c4_witness :
    1 ≤ subDepthFinal [2, 2] 8 2 3 ∧
    (subDepthFinal [2, 2] 8 2 3 = 1 →
      finalSpectrum [2, 2] 8 2 3 [5] [7] = [5]) :=
  c4_amended [2, 2] 8 2 3 [5] [7] (by decide) (by decide) (by decide) (by decide)

/-- Appending the next depth extends the prefix of collected depths. -/
theorem firstDepths_succ (d : ℕ → ℚ) (m : ℕ) :
    firstDepths d (m + 1) = firstDepths d m ++ [d m] := by
  unfold firstDepths
  rw [List.range_succ, List.map_append]
  rfl

/-- Complete characterization of the depth loop on the index window
[i, i + m): either no early stop fires in the window and all depths of the
window are collected, or the loop stops at the first index j > 6 of the
window whose previously collected depths pass the consensus test, keeping
exactly the first j depths. -/
theorem depthLoop_spec (d : ℕ → ℚ) :
    ∀ m i : ℕ,
      ((∀ j, i ≤ j → j < i + m → ¬(6 < j ∧ stopCond d j)) ∧
        depthLoop d (List.range' i m) (firstDepths d i) = firstDepths d (i + m)) ∨
      (∃ j, i ≤ j ∧ j < i + m ∧ 6 < j ∧ stopCond d j ∧
        (∀ j2, i ≤ j2 → j2 < j → ¬(6 < j2 ∧ stopCond d j2)) ∧
        depthLoop d (List.range' i m) (firstDepths d i) = firstDepths d j) := by
  intro m
  induction m with
  | zero =>
    intro i
    left
    exact ⟨fun j h1 h2 => absurd h2 (by omega), rfl⟩
  | succ m ih =>
    intro i
    by_cases hstop : 6 < i ∧ stopCond d i
    · right
      refine ⟨i, le_refl i, by omega, hstop.1, hstop.2,
        fun j2 h1 h2 => absurd h2 (by omega), ?_⟩
      rw [List.range'_succ]
      show (if 6 < i ∧ 6 < medianCount (firstDepths d i) then firstDepths d i
            else depthLoop d (List.range' (i + 1) m) (firstDepths d i ++ [d i])) =
        firstDepths d i
      have hstop2 : 6 < i ∧ 6 < medianCount (firstDepths d i) := hstop
      rw [if_pos hstop2]
    · have step : depthLoop d (List.range' i (m + 1)) (firstDepths d i) =
          depthLoop d (List.range' (i + 1) m) (firstDepths d (i + 1)) := by
        rw [List.range'_succ]
        show (if 6 < i ∧ 6 < medianCount (firstDepths d i) then firstDepths d i
              else depthLoop d (List.range' (i + 1) m) (firstDepths d i ++ [d i])) = _
        have hstop2 : ¬(6 < i ∧ 6 < medianCount (firstDepths d i)) := hstop
        rw [if_neg hstop2, ← firstDepths_succ]
      rcases ih (i + 1) with ⟨hno, heq⟩ | ⟨j, hj1, hj2, hj3, hj4, hj5, heq⟩
      · left
        refine ⟨?_, by rw [step, heq]; congr 1; omega⟩
        intro j h1 h2
        rcases Nat.eq_or_lt_of_le h1 with rfl | hlt
        · exact hstop
        · exact hno j hlt (by omega)
      · right
        refine ⟨j, by omega, by omega, hj3, hj4, ?_, by rw [step, heq]⟩
        intro j2 h1 h2
        rcases Nat.eq_or_lt_of_le h1 with rfl | hlt
        · exact hstop
        · exact hj5 j2 hlt h2

/-- Claim C3, amended: the loop checks the consensus rule from the 8th probe
on (index i > 6, zero-based), using the running median of the first i
depths — excluding the depth computed in the current iteration — and rounds
that median before comparing.  On the first stop the collection used for the
final median is exactly those first i depths, again excluding the most
recently computed one; if no stop fires, all n depths are collected. -/
theorem c3_amended (d : ℕ → ℚ) (n : ℕ) :
    ((∀ j, j < n → ¬(6 < j ∧ stopCond d j)) ∧ subIidSp d n = firstDepths d n) ∨
    (∃ j, j < n ∧ 6 < j ∧ stopCond d j ∧
      (∀ j2, j2 < j → ¬(6 < j2 ∧ stopCond d j2)) ∧
      subIidSp d n = firstDepths d j) := by
  have h := depthLoop_spec d n 0
  have hrw : subIidSp d n = depthLoop d (List.range' 0 n) (firstDepths d 0) := by
    rw [subIidSp, List.range_eq_range']
    rfl
  rcases h with ⟨hno, heq⟩ | ⟨j, _, hj2, hj3, hj4, hj5, heq⟩
  · left
    refine ⟨fun j hj => hno j (Nat.zero_le j) (by omega), ?_⟩
    rw [hrw, heq]
    congr 1
    omega
  · right
    exact ⟨j, by omega, hj3, hj4, fun j2 h2 => hj5 j2 (Nat.zero_le j2) h2,
      by rw [hrw, heq]⟩

/-- Claim C3, counterexample: with the probe depths 2,2,2,2,2,2,2,100 and 8
probes, the loop stops during iteration i = 7 (after computing the depth
100), but the collection it keeps is `sub_iid_sp[0:7]` — the seven 2s — and
not the set of all depths observed so far: the most recently computed depth
100 is discarded, contradicting the claim. -/
theorem c3_counterexample :
    subIidSp dEx 8 = [2, 2, 2, 2, 2, 2, 2] ∧
    subIidSp dEx 8 ≠ firstDepths dEx 8 := by
  have hmed : npMedian [2, 2, 2, 2, 2, 2, 2] = 2 := by
    norm_num [npMedian, List.insertionSort, List.orderedInsert]
  have hrnd : roundHalfEven 2 = 2 := by
    norm_num [roundHalfEven]
  have hmc : medianCount [2, 2, 2, 2, 2, 2, 2] = 7 := by
    norm_num [medianCount, hmed, hrnd]
  have h : subIidSp dEx 8 = [2, 2, 2, 2, 2, 2, 2] := by
    rw [subIidSp, show List.range 8 = [0, 1, 2, 3, 4, 5, 6, 7] from rfl]
    norm_num [depthLoop, dEx, hmc]
  refine ⟨h, ?_⟩
  rw [h, show firstDepths dEx 8 = [2, 2, 2, 2, 2, 2, 2, 100] from by
    norm_num [firstDepths, show List.range 8 = [0, 1, 2, 3, 4, 5, 6, 7] from rfl, dEx]]
  decide

/-- np.diff shortens the curve by one entry. -/
theorem npDiff_length (l : List ℚ) : (npDiff l).length = l.length - 1 := by
  unfold npDiff
  rw [List.length_map, List.length_zip, List.length_tail]
  exact min_eq_right (Nat.sub_le _ _)

/-- Entry i of np.diff is the difference of adjacent curve entries. -/
theorem npDiff_getD (l : List ℚ) (i : ℕ) (h : i + 1 < l.length) :
    (npDiff l).getD i 0 = l.getD (i + 1) 0 - l.getD i 0 := by
  have hlen : i < (npDiff l).length := by rw [npDiff_length]; omega
  rw [List.getD_eq_getElem _ _ hlen]
  unfold npDiff at hlen ⊢
  rw [List.getD_eq_getElem _ _ (by omega : i + 1 < l.length),
    List.getD_eq_getElem _ _ (by omega : i < l.length)]
  simp [List.getElem_zip, List.getElem_tail]

/-- Head of a filtered range: the least index satisfying the predicate. -/
theorem range_filter_head (P : ℕ → Bool) :
    ∀ n j : ℕ, j < n → P j = true → (∀ i, i < j → P i = false) →
      ((List.range n).filter P).head? = some j := by
  intro n
  induction n with
  | zero => intro j hj _ _; exact absurd hj (by omega)
  | succ n ih =>
    intro j hj hP hmin
    rw [List.range_succ, List.filter_append]
    by_cases hjn : j < n
    · have hh := ih j hjn hP hmin
      rcases hne : (List.range n).filter P with _ | ⟨a, t⟩
      · rw [hne] at hh
        exact absurd hh (by simp)
      · rw [hne] at hh
        simpa using hh
    · have hj_eq : j = n := by omega
      have hfil : (List.range n).filter P = [] := by
        rw [List.filter_eq_nil_iff]
        intro a ha
        have haj : a < j := by
          have := List.mem_range.mp ha
          omega
        simp [hmin a haj]
      rw [hfil, ← hj_eq]
      simp [List.filter, hP]

/-- When the criterion curve never increases, the positive-difference list
is empty. -/
theorem firstPosDiff_eq_nil (curve : List ℚ) (h : ∀ i, ¬ diffPos curve i) :
    firstPosDiff curve = [] := by
  unfold firstPosDiff
  rw [List.map_eq_nil_iff, List.filter_eq_nil_iff]
  intro a ha
  rw [List.mem_range, npDiff_length] at ha
  simp only [decide_eq_true_eq]
  intro hpos
  have ha2 : a + 1 < curve.length := by omega
  rw [npDiff_getD curve a ha2] at hpos
  exact h a ⟨ha2, by linarith⟩

/-- comp_est when the chosen curve never increases: the full curve length. -/
theorem compEst_of_no_pos (curve : List ℚ) (h : ∀ i, ¬ diffPos curve i) :
    compEst curve = curve.length := by
  rw [compEst, firstPosDiff_eq_nil curve h]

/-- comp_est when the chosen curve increases somewhere: one plus the least
index with a strictly positive first difference. -/
theorem compEst_of_find (curve : List ℚ) (h : ∃ i, diffPos curve i) :
    compEst curve = Nat.find h + 1 := by
  have hjP : diffPos curve (Nat.find h) := Nat.find_spec h
  have hjmin : ∀ i, i < Nat.find h → ¬ diffPos curve i :=
    fun i hi => Nat.find_min h hi
  have hhead : ((List.range (npDiff curve).length).filter
      (fun i => decide (0 < (npDiff curve).getD i 0))).head? = some (Nat.find h) := by
    apply range_filter_head
    · rw [npDiff_length]
      have := hjP.1
      omega
    · simp only [decide_eq_true_eq]
      rw [npDiff_getD curve (Nat.find h) hjP.1]
      have := hjP.2
      linarith
    · intro i hi
      have hi2 : i + 1 < curve.length := by
        have := hjP.1
        omega
      simp only [decide_eq_false_iff_not]
      rw [npDiff_getD curve i hi2]
      intro hpos
      exact hjmin i hi ⟨hi2, by linarith⟩
  have hmap : (firstPosDiff curve).head? = some (Nat.find h + 1) := by
    unfold firstPosDiff
    rw [List.head?_map, hhead]
    rfl
  rcases hfp : firstPosDiff curve with _ | ⟨a, t⟩
  · rw [hfp] at hmap
    exact absurd hmap (by simp)
  · rw [hfp] at hmap
    simp only [List.head?_cons, Option.some.injEq] at hmap
    rw [compEst, hfp]
    exact hmap

/-- comp_est is always between 1 and the curve length, for non-empty
curves. -/
theorem compEst_bounds (curve : List ℚ) (hc : 1 ≤ curve.length) :
    1 ≤ compEst curve ∧ compEst curve ≤ curve.length := by
  rcases hfp : firstPosDiff curve with _ | ⟨a, t⟩
  · rw [compEst, hfp]
    exact ⟨hc, le_refl _⟩
  · have ha : a ∈ firstPosDiff curve := by
      rw [hfp]
      exact List.mem_cons_self a t
    unfold firstPosDiff at ha
    rcases List.mem_map.mp ha with ⟨i, hi, rfl⟩
    have hir := List.mem_range.mp (List.mem_filter.mp hi).1
    rw [npDiff_length] at hir
    rw [compEst, hfp]
    refine ⟨?_, ?_⟩
    · show 1 ≤ i + 1
      omega
    · show i + 1 ≤ curve.length
      omega

/-- Claim C1: the three criterion curves are computed for the candidate
orders k = 1 .. p-1 (each has length p-1), and the selected order for the
configured criterion equals the first k whose first difference of the chosen
curve is strictly positive (one plus the least increasing index); when the
curve never increases, comp_est is the curve length p-1.  In all cases
1 ≤ comp_est ≤ p-1. -/
theorem c1_order_selection (N logN : ℚ) (p : ℕ) (LH : ℕ → ℚ) (crit : String)
    (ci : ℕ) (hp : 2 ≤ p) (hcrit : criteriaIdx crit = some ci) :
    selectCurve (itcStack N logN p LH) crit =
      some ((itcStack N logN p LH).getD ci []) ∧
    ((itcStack N logN p LH).getD ci []).length = p - 1 ∧
    (∀ h : ∃ i, diffPos ((itcStack N logN p LH).getD ci []) i,
      compEst ((itcStack N logN p LH).getD ci []) = Nat.find h + 1) ∧
    ((∀ i, ¬ diffPos ((itcStack N logN p LH).getD ci []) i) →
      compEst ((itcStack N logN p LH).getD ci []) = p - 1) ∧
    1 ≤ compEst ((itcStack N logN p LH).getD ci []) ∧
    compEst ((itcStack N logN p LH).getD ci []) ≤ p - 1 := by
  have hci : ci < 3 := by
    unfold criteriaIdx at hcrit
    split_ifs at hcrit <;> (injection hcrit with hcrit; omega)
  have hsel : selectCurve (itcStack N logN p LH) crit =
      some ((itcStack N logN p LH).getD ci []) := by
    unfold selectCurve
    rw [hcrit]
    have hlt : ci < (itcStack N logN p LH).length := by
      simpa [itcStack] using hci
    show (itcStack N logN p LH)[ci]? = _
    rw [List.getElem?_eq_getElem hlt, List.getD_eq_getElem _ _ hlt]
  have hlen : ((itcStack N logN p LH).getD ci []).length = p - 1 := by
    have h3 : ci = 0 ∨ ci = 1 ∨ ci = 2 := by omega
    rcases h3 with rfl | rfl | rfl <;>
      simp [itcStack, aicCurve, kicCurve, mdlCurve]
  have hc1 : 1 ≤ ((itcStack N logN p LH).getD ci []).length := by
    rw [hlen]
    omega
  refine ⟨hsel, hlen, ?_, ?_, ?_, ?_⟩
  · intro h
    exact compEst_of_find _ h
  · intro h
    rw [compEst_of_no_pos _ h, hlen]
  · exact (compEst_bounds _ hc1).1
  · have := (compEst_bounds _ hc1).2
    rw [hlen] at this
    exact this

/-- Witness for c1_order_selection with p = 3, N = 1, zero logarithms and
the mdl criterion. -/
theorem c1_witness :
    selectCurve (itcStack 1 0 3 (fun _ => 0)) ("mdl") =
      some ((itcStack 1 0 3 (fun _ => 0)).getD 2 []) ∧
    ((itcStack 1 0 3 (fun _ => 0)).getD 2 []).length = 3 - 1 ∧
    (∀ h : ∃ i, diffPos ((itcStack 1 0 3 (fun _ => 0)).getD 2 []) i,
      compEst ((itcStack 1 0 3 (fun _ => 0)).getD 2 []) = Nat.find h + 1) ∧
    ((∀ i, ¬ diffPos ((itcStack 1 0 3 (fun _ => 0)).getD 2 []) i) →
      compEst ((itcStack 1 0 3 (fun _ => 0)).getD 2 []) = 3 - 1) ∧
    1 ≤ compEst ((itcStack 1 0 3 (fun _ => 0)).getD 2 []) ∧
    compEst ((itcStack 1 0 3 (fun _ => 0)).getD 2 []) ≤ 3 - 1 :=
  c1_order_selection 1 0 3 (fun _ => 0) ("mdl") 2 (by norm_num) (by decide)

/-- Adjacent deduplication preserves membership. -/
theorem mem_dedupAdj : ∀ (l : List ℕ) (x : ℕ), x ∈ dedupAdj l ↔ x ∈ l := by
  intro l
  induction l with
  | nil => intro x; simp [dedupAdj]
  | cons a t ih =>
    intro x
    cases t with
    | nil => simp [dedupAdj]
    | cons b t2 =>
      by_cases hab : a = b
      · subst hab
        have hd : dedupAdj (a :: a :: t2) = dedupAdj (a :: t2) := by
          simp [dedupAdj]
        rw [hd, ih]
        simp [List.mem_cons]
      · have hd : dedupAdj (a :: b :: t2) = a :: dedupAdj (b :: t2) := by
          simp [dedupAdj, hab]
        rw [hd]
        simp [List.mem_cons, ih]

/-- Adjacent deduplication of a weakly sorted list is strictly sorted. -/
theorem dedupAdj_sorted : ∀ l : List ℕ, l.Sorted (· ≤ ·) →
    (dedupAdj l).Sorted (· < ·) := by
  intro l
  induction l with
  | nil => intro _; simp [dedupAdj]
  | cons a t ih =>
    intro h
    cases t with
    | nil => simp [dedupAdj]
    | cons b t2 =>
      have hst := (List.sorted_cons.mp h).2
      have hab : a ≤ b := (List.sorted_cons.mp h).1 b (List.mem_cons_self b t2)
      by_cases he : a = b
      · rw [show dedupAdj (a :: b :: t2) = dedupAdj (b :: t2) from by
          simp [dedupAdj, he]]
        exact ih hst
      · rw [show dedupAdj (a :: b :: t2) = a :: dedupAdj (b :: t2) from by
          simp [dedupAdj, he]]
        rw [List.sorted_cons]
        refine ⟨?_, ih hst⟩
        intro c hc
        have hcmem : c ∈ b :: t2 := (mem_dedupAdj _ c).mp hc
        have hbc : b ≤ c := by
          rcases List.mem_cons.mp hcmem with rfl | hc2
          · exact le_refl _
          · exact (List.sorted_cons.mp hst).1 c hc2
        omega

/-- Adjacent deduplication does nothing to a strictly sorted list. -/
theorem dedupAdj_of_sorted_lt : ∀ l : List ℕ, l.Sorted (· < ·) →
    dedupAdj l = l := by
  intro l
  induction l with
  | nil => intro _; rfl
  | cons a t ih =>
    intro h
    cases t with
    | nil => rfl
    | cons b t2 =>
      have hab : a < b := (List.sorted_cons.mp h).1 b (List.mem_cons_self b t2)
      have hst := (List.sorted_cons.mp h).2
      rw [show dedupAdj (a :: b :: t2) = a :: dedupAdj (b :: t2) from by
        simp [dedupAdj, Nat.ne_of_lt hab]]
      rw [ih hst]

/-- np.unique returns a strictly ascending list. -/
theorem npUniqueN_sorted (l : List ℕ) : (npUniqueN l).Sorted (· < ·) :=
  dedupAdj_sorted _ (List.sorted_insertionSort _ l)

/-- np.unique preserves membership. -/
theorem mem_npUniqueN (l : List ℕ) (x : ℕ) : x ∈ npUniqueN l ↔ x ∈ l := by
  unfold npUniqueN
  rw [mem_dedupAdj]
  exact (List.perm_insertionSort (· ≤ ·) l).mem_iff

/-- np.unique does nothing to a strictly ascending list. -/
theorem npUniqueN_of_sorted_lt (l : List ℕ) (h : l.Sorted (· < ·)) :
    npUniqueN l = l := by
  unfold npUniqueN
  rw [List.Sorted.insertionSort_eq (List.Pairwise.imp (fun hab => le_of_lt hab) h)]
  exact dedupAdj_of_sorted_lt l h

/-- Dropping i entries of range n leaves the range from i. -/
theorem drop_range (n i : ℕ) : (List.range n).drop i = List.range' i (n - i) := by
  apply List.ext_getElem
  · simp [List.length_drop, List.length_range, List.length_range']
  · intro k h1 h2
    rw [List.getElem_drop, List.getElem_range, List.getElem_range']
    omega

/-- Filtering range n by membership below m ≤ n gives range m. -/
theorem range_filter_lt : ∀ n m : ℕ, m ≤ n →
    (List.range n).filter (fun i => decide (i < m)) = List.range m := by
  intro n
  induction n with
  | zero =>
    intro m hm
    have h0 : m = 0 := by omega
    subst h0
    rfl
  | succ n ih =>
    intro m hm
    rw [List.range_succ, List.filter_append]
    by_cases hmn : m ≤ n
    · rw [ih m hmn]
      have hdec : decide (n < m) = false := decide_eq_false (by omega)
      have hnil : List.filter (fun i => decide (i < m)) [n] = [] := by
        simp [List.filter, hdec]
      rw [hnil, List.append_nil]
    · have hm2 : m = n + 1 := by omega
      subst hm2
      rw [List.range_succ]
      congr 1
      · rw [List.filter_eq_self]
        intro a ha
        simp only [decide_eq_true_eq]
        have := List.mem_range.mp ha
        omega
      · have hdec : decide (n < n + 1) = true := decide_eq_true (by omega)
        simp [List.filter, hdec]

/-- For a non-increasing spectrum, the indices above machine epsilon form an
initial segment of length dfs. -/
theorem epsIndices_eq_range (eig : List ℚ) (hsort : eig.Sorted (· ≥ ·)) :
    epsIndices eig = List.range (dfsCount eig) := by
  have hdc : ∀ i j : ℕ, i ≤ j → j < eig.length → machineEps < eig.getD j 0 →
      machineEps < eig.getD i 0 := by
    intro i j hij hj hgt
    rcases Nat.eq_or_lt_of_le hij with rfl | hlt
    · exact hgt
    · have hrel : eig.getD j 0 ≤ eig.getD i 0 := by
        rw [List.getD_eq_getElem _ _ hj, List.getD_eq_getElem _ _ (by omega)]
        exact List.pairwise_iff_getElem.mp hsort i j (by omega) hj hlt
      linarith
  have hm_le : dfsCount eig ≤ eig.length := by
    unfold dfsCount epsIndices
    refine le_trans (List.length_filter_le _ _) ?_
    rw [List.length_range]
  have hiff : ∀ i, i < eig.length →
      ((machineEps < eig.getD i 0) ↔ i < dfsCount eig) := by
    intro i hi
    constructor
    · intro hP
      by_contra hge
      push_neg at hge
      have hsub : (List.range (i + 1)).filter
          (fun j => decide (machineEps < eig.getD j 0)) = List.range (i + 1) := by
        rw [List.filter_eq_self]
        intro a ha
        have haj : a ≤ i := by
          have := List.mem_range.mp ha
          omega
        simp only [decide_eq_true_eq]
        exact hdc a i haj hi hP
      have hsplit : List.range eig.length =
          List.range (i + 1) ++ (List.range eig.length).drop (i + 1) := by
        conv_lhs => rw [← List.take_append_drop (i + 1) (List.range eig.length)]
        congr 1
        rw [List.take_range]
        congr 1
        omega
      have hge2 : i + 1 ≤ dfsCount eig := by
        unfold dfsCount epsIndices
        rw [hsplit, List.filter_append, List.length_append, hsub, List.length_range]
        omega
      omega
    · intro him
      by_contra hP
      have hup : ∀ j, i ≤ j → j < eig.length → ¬ machineEps < eig.getD j 0 := by
        intro j hij hj hPj
        exact hP (hdc i j hij hj hPj)
      have hdropnil : ((List.range eig.length).drop i).filter
          (fun j => decide (machineEps < eig.getD j 0)) = [] := by
        rw [drop_range, List.filter_eq_nil_iff]
        intro a ha
        rcases List.mem_range'.mp ha with ⟨k, hk, rfl⟩
        simp only [decide_eq_true_eq]
        exact hup (i + 1 * k) (by omega) (by omega)
      have hsplit : List.range eig.length =
          (List.range eig.length).take i ++ (List.range eig.length).drop i :=
        (List.take_append_drop i _).symm
      have hcle : dfsCount eig ≤ i := by
        unfold dfsCount epsIndices
        rw [hsplit, List.filter_append, List.length_append, hdropnil]
        have hfle := List.length_filter_le
          (fun j => decide (machineEps < eig.getD j 0))
          ((List.range eig.length).take i)
        have hti : ((List.range eig.length).take i).length ≤ i := by
          rw [List.length_take]
          omega
        simp only [List.length_nil]
        omega
      omega
  have hcong : epsIndices eig =
      (List.range eig.length).filter (fun i => decide (i < dfsCount eig)) := by
    unfold epsIndices
    apply List.filter_congr
    intro a ha
    exact decide_eq_decide.mpr (hiff a (List.mem_range.mp ha))
  rw [hcong, range_filter_lt eig.length (dfsCount eig) hm_le]

/-- Claim C8: the eligible set is exactly the indices whose sentinel-adjusted
kurtosis statistic lies strictly in (0, 0.3) and whose eigenvalue exceeds
machine epsilon; the probe set is always strictly ascending (hence
deduplicated); when at least 12 indices are eligible its members are exactly
those of the union of the first 4, the 4 at the middle, and the last 4; and
otherwise — the spectrum being non-increasing at this stage — it equals the
last min(12, dfs) indices among the components with eigenvalue above
epsilon. -/
theorem c8_gaussian_selection (kurt eig : List ℚ) (hsort : eig.Sorted (· ≥ ·)) :
    (∀ i, i ∈ idxGauss kurt eig ↔ i < eig.length ∧ 0 < kurtAdjusted kurt eig i ∧
      kurtAdjusted kurt eig i < 3 / 10 ∧ machineEps < eig.getD i 0) ∧
    (gaussianSelect kurt eig).Sorted (· < ·) ∧
    (12 ≤ (idxGauss kurt eig).length →
      ∀ j, j ∈ gaussianSelect kurt eig ↔
        j ∈ (idxGauss kurt eig).take 4 ++
          ((idxGauss kurt eig).drop (middleOf (idxGauss kurt eig).length - 1)).take 4 ++
          (idxGauss kurt eig).drop ((idxGauss kurt eig).length - 4)) ∧
    ((idxGauss kurt eig).length < 12 →
      gaussianSelect kurt eig =
        specLastEligible (epsIndices eig) (min 12 (dfsCount eig))) := by
  refine ⟨?_, ?_, ?_, ?_⟩
  · intro i
    simp only [idxGauss, List.mem_filter, List.mem_range, Bool.and_eq_true,
      decide_eq_true_eq]
    tauto
  · unfold gaussianSelect
    split
    · exact npUniqueN_sorted _
    · exact npUniqueN_sorted _
  · intro hlen j
    unfold gaussianSelect
    rw [if_pos hlen]
    exact mem_npUniqueN _ j
  · intro hlt
    unfold gaussianSelect
    rw [if_neg (by omega)]
    have hmle : min 12 (dfsCount eig) ≤ dfsCount eig := min_le_right _ _
    have hspec : specLastEligible (epsIndices eig) (min 12 (dfsCount eig)) =
        List.range' (dfsCount eig - min 12 (dfsCount eig)) (min 12 (dfsCount eig)) := by
      unfold specLastEligible
      rw [epsIndices_eq_range eig hsort, List.length_range, drop_range]
      congr 1
      omega
    rw [hspec]
    exact npUniqueN_of_sorted_lt _
      (List.pairwise_lt_range' (dfsCount eig - min 12 (dfsCount eig))
        (min 12 (dfsCount eig)))

/-- Witness for c8_gaussian_selection at a concrete descending spectrum with
three eligible components. -/
theorem c8_witness :
    (∀ i, i ∈ idxGauss [1/10, 1/10, 1/10, 1/10, 1/10] [5, 4, 3, 2, 1] ↔
      i < ([5, 4, 3, 2, 1] : List ℚ).length ∧
      0 < kurtAdjusted [1/10, 1/10, 1/10, 1/10, 1/10] [5, 4, 3, 2, 1] i ∧
      kurtAdjusted [1/10, 1/10, 1/10, 1/10, 1/10] [5, 4, 3, 2, 1] i < 3 / 10 ∧
      machineEps < ([5, 4, 3, 2, 1] : List ℚ).getD i 0) ∧
    (gaussianSelect [1/10, 1/10, 1/10, 1/10, 1/10] [5, 4, 3, 2, 1]).Sorted (· < ·) ∧
    (12 ≤ (idxGauss [1/10, 1/10, 1/10, 1/10, 1/10] [5, 4, 3, 2, 1]).length →
      ∀ j, j ∈ gaussianSelect [1/10, 1/10, 1/10, 1/10, 1/10] [5, 4, 3, 2, 1] ↔
        j ∈ (idxGauss [1/10, 1/10, 1/10, 1/10, 1/10] [5, 4, 3, 2, 1]).take 4 ++
          ((idxGauss [1/10, 1/10, 1/10, 1/10, 1/10] [5, 4, 3, 2, 1]).drop
            (middleOf (idxGauss [1/10, 1/10, 1/10, 1/10, 1/10] [5, 4, 3, 2, 1]).length - 1)).take 4 ++
          (idxGauss [1/10, 1/10, 1/10, 1/10, 1/10] [5, 4, 3, 2, 1]).drop
            ((idxGauss [1/10, 1/10, 1/10, 1/10, 1/10] [5, 4, 3, 2, 1]).length - 4)) ∧
    ((idxGauss [1/10, 1/10, 1/10, 1/10, 1/10] [5, 4, 3, 2, 1]).length < 12 →
      gaussianSelect [1/10, 1/10, 1/10, 1/10, 1/10] [5, 4, 3, 2, 1] =
        specLastEligible (epsIndices [5, 4, 3, 2, 1])
          (min 12 (dfsCount [5, 4, 3, 2, 1]))) :=
  c8_gaussian_selection [1/10, 1/10, 1/10, 1/10, 1/10] [5, 4, 3, 2, 1]
    (by norm_num [List.Sorted, List.pairwise_cons])

/-- The dot product as an indexed sum over the common length. -/
theorem matDot_eq_sum : ∀ a b : List ℚ,
    matDot a b = ∑ k ∈ Finset.range (min a.length b.length),
      a.getD k 0 * b.getD k 0 := by
  intro a
  induction a with
  | nil => intro b; simp [matDot]
  | cons x xs ih =>
    intro b
    cases b with
    | nil => simp [matDot]
    | cons y ys =>
      have hmd : matDot (x :: xs) (y :: ys) = x * y + matDot xs ys := by
        simp [matDot]
      rw [hmd, ih ys]
      have hmin : min (x :: xs).length (y :: ys).length =
          min xs.length ys.length + 1 := by
        simp [List.length_cons]
        omega
      rw [hmin, Finset.sum_range_succ']
      simp [List.getD_cons_zero, List.getD_cons_succ]
      ring

/-- getD of a mapped range. -/
theorem getD_map_range (f : ℕ → ℚ) (c : ℕ) (k : ℕ) :
    ((List.range c).map f).getD k 0 = if k < c then f k else 0 := by
  by_cases h : k < c
  · rw [if_pos h, List.getD_eq_getElem _ _ (by simpa using h)]
    simp [List.getElem_map, List.getElem_range]
  · rw [if_neg h, List.getD_eq_default _ _ (by simp; omega)]

/-- Dot product against a scaled standard-basis column. -/
theorem matDot_delta (a : List ℚ) (c : ℕ) (j : ℕ) (x : ℚ)
    (ha : a.length = c) (hj : j < c) :
    matDot a ((List.range c).map fun k => if k = j then x else 0) =
      a.getD j 0 * x := by
  rw [matDot_eq_sum]
  have hlen : min a.length
      (((List.range c).map fun k => if k = j then x else 0).length) = c := by
    simp [ha]
  rw [hlen]
  have hsum : ∀ k ∈ Finset.range c,
      a.getD k 0 * (((List.range c).map fun k => if k = j then x else 0).getD k 0)
        = if k = j then a.getD k 0 * x else 0 := by
    intro k hk
    rw [getD_map_range, if_pos (Finset.mem_range.mp hk)]
    split_ifs <;> ring
  rw [Finset.sum_congr rfl hsum,
    Finset.sum_ite_eq' (Finset.range c) j (fun k => a.getD k 0 * x),
    if_pos (Finset.mem_range.mpr hj)]

/-- Entry (i, j) of a matrix product. -/
theorem matMul_getD (a b : List (List ℚ)) (c i j : ℕ)
    (hi : i < a.length) (hj : j < c) :
    ((matMul a b c).getD i []).getD j 0 = matDot (a.getD i []) (matCol b j) := by
  have h1 : (matMul a b c).getD i [] =
      (List.range c).map fun j' => matDot (a.getD i []) (matCol b j') := by
    unfold matMul
    rw [List.getD_eq_getElem _ _ (by simpa using hi), List.getElem_map,
      List.getD_eq_getElem _ _ hi]
  rw [h1, getD_map_range, if_pos hj]

/-- Column j of np.diag is a scaled standard-basis column. -/
theorem matCol_npDiag (w : List ℚ) (j : ℕ) (hj : j < w.length) :
    matCol (npDiag w) j =
      (List.range w.length).map fun k => if k = j then w.getD j 0 else 0 := by
  unfold matCol npDiag
  rw [List.map_map]
  apply List.map_congr_left
  intro k _
  simp only [Function.comp]
  rw [getD_map_range, if_pos hj]
  split_ifs with hkj
  · rw [hkj]
  · rfl

/-- Claim C9: the final rank-limited decomposition is fitted on the
original, full-resolution, non-normalized masked matrix — the normalized
copy computed at line 61 is discarded by the reassignment at line 62 — and
each entry of the returned spatial weights satisfies
U[i, j] = (data · V)[i, j] · (1 / S[j]), that is U = data · V · diag(1/S). -/
theorem c9_final_decomposition (dataNonNormalized scaled v : List (List ℚ))
    (s : List ℚ) (i j : ℕ) (hi : i < dataNonNormalized.length)
    (hj : j < s.length) :
    fitInput dataNonNormalized scaled = dataNonNormalized ∧
    ((computeU dataNonNormalized scaled v s).getD i []).getD j 0 =
      matDot (dataNonNormalized.getD i []) (matCol v j) * (1 / s.getD j 0) := by
  refine ⟨rfl, ?_⟩
  have hw : (s.map fun x => 1 / x).length = s.length := by simp
  have hstep : ((computeU dataNonNormalized scaled v s).getD i []).getD j 0 =
      matDot ((matMul dataNonNormalized v s.length).getD i [])
        (matCol (npDiag (s.map fun x => 1 / x)) j) :=
    matMul_getD (matMul dataNonNormalized v s.length)
      (npDiag (s.map fun x => 1 / x)) s.length i j (by simpa [matMul] using hi) hj
  rw [hstep, matCol_npDiag _ j (by simpa using hj), hw]
  have hrow : (matMul dataNonNormalized v s.length).getD i [] =
      (List.range s.length).map fun j' =>
        matDot (dataNonNormalized.getD i []) (matCol v j') := by
    unfold matMul
    rw [List.getD_eq_getElem _ _ (by simpa using hi), List.getElem_map,
      List.getD_eq_getElem _ _ hi]
  rw [hrow, matDot_delta _ s.length j _ (by simp) hj, getD_map_range, if_pos hj,
    List.getD_eq_getElem (s.map fun x => 1 / x) _ (by simpa using hj),
    List.getElem_map, List.getD_eq_getElem _ _ hj]

/-- Witness for c9_final_decomposition at concrete 2-by-2 data. -/
theorem c9_witness :
    fitInput [[1, 2], [3, 4]] [[9, 9], [9, 9]] = [[1, 2], [3, 4]] ∧
    ((computeU [[1, 2], [3, 4]] [[9, 9], [9, 9]] [[1, 0], [0, 1]] [2, 4]).getD 0 []).getD 1 0 =
      matDot (([[1, 2], [3, 4]] : List (List ℚ)).getD 0 [])
        (matCol [[1, 0], [0, 1]] 1) * (1 / ([2, 4] : List ℚ).getD 1 0) :=
  c9_final_decomposition [[1, 2], [3, 4]] [[9, 9], [9, 9]] [[1, 0], [0, 1]]
    [2, 4] 0 1 (by decide) (by decide)

/-- getD of a tail shifts the index by one. -/
theorem tail_getD (l : List ℚ) (i : ℕ) : l.tail.getD i 0 = l.getD (i + 1) 0 := by
  cases l with
  | nil => simp
  | cons a t => simp [List.getD_cons_succ]

/-- The scattered flat volume holds, at each position below the mask length,
the component value indexed by the number of selected mask entries before
that position — exactly when the mask selects the position — and 0
elsewhere. -/
theorem scatterMask_getD : ∀ (m c : List ℚ) (p : ℕ), p < m.length →
    (scatterMask m c).getD p 0 =
      if m.getD p 0 = 1 then c.getD ((m.take p).count 1) 0 else 0 := by
  intro m
  induction m with
  | nil => intro c p hp; exact absurd hp (by simp)
  | cons a ms ih =>
    intro c p hp
    cases p with
    | zero =>
      by_cases ha : a = 1
      · rw [show scatterMask (a :: ms) c = c.getD 0 0 :: scatterMask ms c.tail from by
          simp [scatterMask, ha]]
        simp [ha]
      · rw [show scatterMask (a :: ms) c = 0 :: scatterMask ms c from by
          simp [scatterMask, ha]]
        simp [ha]
    | succ p =>
      have hp2 : p < ms.length := by simpa using hp
      by_cases ha : a = 1
      · rw [show scatterMask (a :: ms) c = c.getD 0 0 :: scatterMask ms c.tail from by
          simp [scatterMask, ha]]
        rw [List.getD_cons_succ, ih c.tail p hp2, List.getD_cons_succ]
        have hc : ((a :: ms).take (p + 1)).count 1 = (ms.take p).count 1 + 1 := by
          rw [List.take_succ_cons, List.count_cons]
          simp [ha]
        rw [hc, tail_getD]
      · rw [show scatterMask (a :: ms) c = 0 :: scatterMask ms c from by
          simp [scatterMask, ha]]
        rw [List.getD_cons_succ, ih c p hp2, List.getD_cons_succ]
        have hc : ((a :: ms).take (p + 1)).count 1 = (ms.take p).count 1 := by
          rw [List.take_succ_cons, List.count_cons]
          simp [ha]
        rw [hc]

/-- Claim C10: flattening the order-"F" reshape of a flat vector of length
nx·ny·nz returns the vector unchanged (the same column-major linearization
is used in both directions), and the scatter of component values into
in-mask positions followed by the order-"F" reshape places each value at
exactly the voxel whose mask entry selected it: voxel (i, j, k) of the
scattered volume holds the component value whose rank is the number of
selected positions before that voxel's Fortran index, precisely when the
reshaped mask is 1 at (i, j, k). -/
theorem c10_fortran_roundtrip (l : List ℚ) (nx ny nz : ℕ)
    (hl : l.length = nx * ny * nz) (m c : List ℚ) (i j k : ℕ)
    (hp : fortranIndex nx ny i j k < m.length) :
    flattenF (reshapeF l nx ny) nx ny nz = l ∧
    reshapeF (scatterMask m c) nx ny i j k =
      (if reshapeF m nx ny i j k = 1
       then c.getD ((m.take (fortranIndex nx ny i j k)).count 1) 0 else 0) := by
  constructor
  · apply List.ext_getElem
    · simp [flattenF, hl]
    · intro n h1 h2
      have hn : n < nx * ny * nz := by simpa [flattenF] using h1
      unfold flattenF
      rw [List.getElem_map, List.getElem_range]
      unfold reshapeF fortranIndex
      have harith : n % nx + nx * (n / nx % ny + ny * (n / (nx * ny))) = n := by
        rw [← Nat.div_div_eq_div_mul]
        calc n % nx + nx * (n / nx % ny + ny * (n / nx / ny))
            = n % nx + nx * (n / nx) := by rw [Nat.mod_add_div]
          _ = n := Nat.mod_add_div n nx
      rw [harith, List.getD_eq_getElem _ _ (by omega)]
  · unfold reshapeF
    exact scatterMask_getD m c _ hp

/-- Witness for c10_fortran_roundtrip on a 2-by-2-by-2 volume and a
two-entry mask. -/
theorem c10_witness :
    flattenF (reshapeF [1, 2, 3, 4, 5, 6, 7, 8] 2 2) 2 2 2 =
      [1, 2, 3, 4, 5, 6, 7, 8] ∧
    reshapeF (scatterMask [0, 1] [5]) 2 2 1 0 0 =
      (if reshapeF [0, 1] 2 2 1 0 0 = 1
       then ([5] : List ℚ).getD ((([0, 1] : List ℚ).take (fortranIndex 2 2 1 0 0)).count 1) 0
       else 0) :=
  c10_fortran_roundtrip [1, 2, 3, 4, 5, 6, 7, 8] 2 2 2 (by decide)
    [0, 1] [5] 1 0 0 (by decide)
